import Mathlib

/-!
Verification of the KRRA race-series name matcher and points engine.

Shallow embedding of `krra_race_series` (members.py, matching.py, scoring.py).
Python strings are modelled as Lean `String` (a wrapper around `List Char`),
Python `float` similarity scores as exact rationals `ℚ` (every score produced
by the matcher is a ratio of small integers, and the spec only constrains the
accept/reject/ambiguous decisions, not float rounding), and Python `int` as
`ℤ`.  The rapidfuzz `fuzz.token_sort_ratio` scorer is modelled per its
documented algorithm: split both strings on whitespace, sort the tokens,
join with single spaces, then take the normalized indel similarity
(`1 - dist/(len a + len b)`, scaled here directly to `[0,1]` because
`find_by_name` immediately divides the 0–100 score by 100).
-/

namespace KRRA

/-! ### Models of the Python string primitives -/

/-- The upper-to-lower case table for ASCII letters. -/
def upperLowerPairs : List (Char × Char) :=
  [('A', 'a'), ('B', 'b'), ('C', 'c'), ('D', 'd'), ('E', 'e'), ('F', 'f'),
   ('G', 'g'), ('H', 'h'), ('I', 'i'), ('J', 'j'), ('K', 'k'), ('L', 'l'),
   ('M', 'm'), ('N', 'n'), ('O', 'o'), ('P', 'p'), ('Q', 'q'), ('R', 'r'),
   ('S', 's'), ('T', 't'), ('U', 'u'), ('V', 'v'), ('W', 'w'), ('X', 'x'),
   ('Y', 'y'), ('Z', 'z')]

/-- ASCII model of Python `str.lower` on a single character (the roster and
race data this system ingests is ASCII; `str.lower` maps `A`–`Z` to
`a`–`z` and fixes everything else). -/
def pyLowerChar (c : Char) : Char :=
  ((upperLowerPairs.find? (fun p => p.1 == c)).map Prod.snd).getD c

/-- Model of Python `str.lower`. -/
def pyLower (s : String) : String := ⟨s.data.map pyLowerChar⟩

/-- Strip leading and trailing whitespace from a character list. -/
def stripL (l : List Char) : List Char :=
  ((l.dropWhile Char.isWhitespace).reverse.dropWhile Char.isWhitespace).reverse

/-- Model of Python `str.strip()` (no argument: strips whitespace). -/
def pyStrip (s : String) : String := ⟨stripL s.data⟩

/-- Emit the accumulated (reversed) token, if non-empty. -/
def emitTok (acc : List Char) : List (List Char) :=
  if acc = [] then [] else [acc.reverse]

/-- Tokenizer worker: split on whitespace runs, discarding empty tokens,
with `acc` holding the current token reversed. -/
def tokAux : List Char → List Char → List (List Char)
  | [], acc => emitTok acc
  | c :: cs, acc =>
    if c.isWhitespace then emitTok acc ++ tokAux cs [] else tokAux cs (c :: acc)

/-- Model of Python `str.split()` with no argument (split on whitespace
runs, no empty tokens), as used by rapidfuzz token processing. -/
def tokensL (l : List Char) : List (List Char) := tokAux l []

/-- Python string comparison `a < b` (lexicographic by code point), on the
underlying character lists.  Defined from scratch so that it reduces in the
kernel (the library order on `String` does not). -/
def strLtB : List Char → List Char → Bool
  | [], [] => false
  | [], _ :: _ => true
  | _ :: _, [] => false
  | a :: as, b :: bs =>
    if a.toNat < b.toNat then true
    else if b.toNat < a.toNat then false
    else strLtB as bs

/-- The non-strict token order `x ≤ y` used when sorting tokens, as Python's
`sorted` does with `<` comparisons. -/
def tokenOrder (x y : List Char) : Prop := strLtB y x = false

instance : DecidableRel tokenOrder :=
  fun x y => inferInstanceAs (Decidable (strLtB y x = false))

/-- Join tokens with single spaces (Python `" ".join`). -/
def joinWithSpace : List (List Char) → List Char
  | [] => []
  | [t] => t
  | t :: t' :: ts => t ++ ' ' :: joinWithSpace (t' :: ts)

/-- The token-sort normalization used by `fuzz.token_sort_ratio`: sort the
whitespace tokens and join them with single spaces. -/
def tokenSortKeyL (l : List Char) : List Char :=
  joinWithSpace (List.insertionSort tokenOrder (tokensL l))

/-- `tokenSortKeyL` on strings. -/
def tokenSortKey (s : String) : String := ⟨tokenSortKeyL s.data⟩

/-- Longest-common-subsequence worker: `lcsAux step a bs` computes the LCS
length of `a :: as` and `bs`, where `step bs'` computes the LCS length of
`as` and `bs'`. -/
def lcsAux (step : List Char → Nat) (a : Char) : List Char → Nat
  | [] => 0
  | b :: bs => if a = b then step bs + 1 else max (lcsAux step a bs) (step (b :: bs))

/-- Longest common subsequence length of two character lists. -/
def lcsL : List Char → List Char → Nat
  | [], _ => 0
  | a :: as, bs => lcsAux (lcsL as) a bs

/-- Indel (insertion/deletion only) edit distance, as used by rapidfuzz's
`ratio`: `|a| + |b| - 2·LCS(a,b)`. -/
def indelDistL (a b : List Char) : Nat := a.length + b.length - 2 * lcsL a b

/-- Model of `fuzz.token_sort_ratio(a, b) / 100.0`: normalized indel
similarity of the token-sort normalizations, in `[0,1]`.  Two empty
strings are perfectly similar by rapidfuzz convention. -/
def tokenSortScore (a b : String) : ℚ :=
  if (tokenSortKeyL a.data).length + (tokenSortKeyL b.data).length = 0 then 1
  else 1 - (indelDistL (tokenSortKeyL a.data) (tokenSortKeyL b.data) : ℚ) /
    (((tokenSortKeyL a.data).length + (tokenSortKeyL b.data).length : ℕ) : ℚ)

/-! ### Data model (members.py) -/

/-- `Member` dataclass from members.py. -/
structure Member where
  member_id : String
  first_name : String
  last_name : String
  email : Option String
  age : Option Int
  gender : Option String
deriving DecidableEq

/-- `Member.full_name`: `f"{first_name} {last_name}"`. -/
def Member.full_name (m : Member) : String :=
  m.first_name ++ " " ++ m.last_name

/-- `MemberRegistry` state: the member list and the name-correction map
(a dict `race_name (lowercased) → member_name`, modelled as an association
list with first-match lookup). -/
structure MemberRegistry where
  members : List Member
  name_corrections : List (String × String)
deriving DecidableEq

/-- `MatchResultDict` from members.py. -/
structure MatchResultDict where
  member : Option Member
  confidence : ℚ
  is_ambiguous : Bool
deriving DecidableEq

/-! ### find_by_name (members.py lines 100-170) -/

/-- The similarity actually computed for a member inside `find_by_name`. -/
def memberScore (nn : String) (m : Member) : ℚ :=
  tokenSortScore nn (pyLower m.full_name)

/-- The maximum fuzzy score over the registry (0 for an empty registry). -/
def bestScore (nn : String) (ms : List Member) : ℚ :=
  (ms.map (fun m => memberScore nn m)).foldr max 0

/-- The fuzzy scoring loop of `find_by_name` (members.py lines 136-146):
score every member, short-circuiting with `Except.error member` when a
member scores exactly 1.0. -/
def computeScores (nn : String) : List Member → Except Member (List (Member × ℚ))
  | [] => Except.ok []
  | m :: ms =>
    let score := tokenSortScore nn (pyLower m.full_name)
    if score = 1 then Except.error m
    else (computeScores nn ms).map (fun rest => (m, score) :: rest)

/-- Descending-by-score order used for `scores.sort(key=..., reverse=True)`.
`insertionSort` with this relation is a stable descending sort, matching
Python's stable `list.sort`. -/
def scoreDescOrder (x y : Member × ℚ) : Prop := y.2 ≤ x.2

instance : DecidableRel scoreDescOrder :=
  fun x y => inferInstanceAs (Decidable (y.2 ≤ x.2))

instance : IsTotal (Member × ℚ) scoreDescOrder :=
  ⟨fun a b => le_total b.2 a.2⟩

instance : IsTrans (Member × ℚ) scoreDescOrder :=
  ⟨fun _ _ _ h1 h2 => le_trans h2 h1⟩

/-- The fuzzy phase of `find_by_name` (members.py lines 136-170): sort the
scores descending, reject below `min_confidence`, otherwise accept the top
candidate and flag ambiguity from the gap to the second candidate. -/
def fuzzyPhase (members : List Member) (nn : String)
    (min_confidence ambiguity_threshold : ℚ) : MatchResultDict :=
  match computeScores nn members with
  | Except.error m => ⟨some m, 1, false⟩
  | Except.ok scores =>
    match List.insertionSort scoreDescOrder scores with
    | [] => ⟨none, 0, false⟩
    | (best_member, best_score) :: rest =>
      if best_score < min_confidence then ⟨none, best_score, false⟩
      else
        ⟨some best_member, best_score,
          match rest with
          | [] => false
          | (_, second_best_score) :: _ =>
            decide (best_score - second_best_score ≤ ambiguity_threshold)⟩

/-- The correction phase of `find_by_name` (members.py lines 126-134): if
the normalized name is a correction key, return the first member whose
lower-cased full name equals the corrected name, else nothing (the Python
code falls through to fuzzy matching in both `none` cases). -/
def correctionHit (r : MemberRegistry) (nn : String) : Option Member :=
  match r.name_corrections.lookup nn with
  | some corrected =>
    r.members.find? (fun m => pyLower m.full_name == pyLower corrected)
  | none => none

/-- `MemberRegistry.find_by_name` (members.py lines 100-170).  The
normalized name `name.strip().lower()` is written `pyLower (pyStrip name)`
at both use sites. -/
def MemberRegistry.find_by_name (r : MemberRegistry) (name : String)
    (min_confidence ambiguity_threshold : ℚ) : MatchResultDict :=
  if r.members.isEmpty then ⟨none, 0, false⟩
  else
    match correctionHit r (pyLower (pyStrip name)) with
    | some member => ⟨some member, 1, false⟩
    | none =>
      fuzzyPhase r.members (pyLower (pyStrip name)) min_confidence ambiguity_threshold

/-! ### FinisherMatcher (matching.py) -/

/-- `RaceResult` dataclass from race_results.py. -/
structure RaceResult where
  place : Int
  name : String
  time : String
  age : Option Int
  gender : Option String
  bib_number : Option String
deriving DecidableEq

/-- `MatchResult` dataclass from matching.py. -/
structure MatchResult where
  race_result : RaceResult
  member : Option Member
  matched : Bool
  confidence : ℚ
  is_ambiguous : Bool
deriving DecidableEq

/-- `FinisherMatcher` configuration from matching.py. -/
structure FinisherMatcher where
  member_registry : MemberRegistry
  min_confidence : ℚ
  ambiguity_threshold : ℚ

/-- `FinisherMatcher.match_finisher` (matching.py lines 45-69): wrap
`find_by_name`, with `matched` true exactly when a member was returned. -/
def FinisherMatcher.match_finisher (fm : FinisherMatcher)
    (race_result : RaceResult) : MatchResult :=
  let result := fm.member_registry.find_by_name race_result.name
    fm.min_confidence fm.ambiguity_threshold
  { race_result := race_result
    member := result.member
    matched := result.member.isSome
    confidence := result.confidence
    is_ambiguous := result.is_ambiguous }

/-! ### Roster loader (members.py lines 72-98)

A CSV row produced by `csv.DictReader` is modelled as an association list
from column name to cell text (`row.get key` is `lookup`); a column that is
present but empty maps to `""`, an absent column has no entry. -/

/-- `row.get(key)`. -/
def rowGet (row : List (String × String)) (key : String) : Option String :=
  row.lookup key

/-- `row.get(key, dflt)`. -/
def rowGetD (row : List (String × String)) (key dflt : String) : String :=
  (rowGet row key).getD dflt

/-- Model of Python `int(s)` on a string: optional surrounding whitespace,
optional sign, at least one digit; `none` models a raised `ValueError`. -/
def pyInt (s : String) : Option Int :=
  let t := pyStrip s
  if t.startsWith "-" then (t.drop 1).toNat?.map (fun n => -(n : Int))
  else if t.startsWith "+" then (t.drop 1).toNat?.map (fun n => (n : Int))
  else t.toNat?.map (fun n => (n : Int))

/-- The age computed for a row: `int(row["age"]) if row.get("age") else
None` (members.py line 95).  `Except.error` models the uncaught
`ValueError` raised by `int` when the age cell is non-empty but not a
number (`if row.get("age")` is Python truthiness: absent or empty means no
parse is attempted). -/
def ageFromRow (row : List (String × String)) : Except String (Option Int) :=
  match rowGet row "age" with
  | none => Except.ok none
  | some s =>
    if s = "" then Except.ok none
    else
      match pyInt s with
      | some n => Except.ok (some n)
      | none => Except.error "ValueError"

/-- One iteration of the `load_from_csv` row loop (members.py lines 89-98). -/
def memberFromRow (row : List (String × String)) : Except String Member :=
  (ageFromRow row).map fun age =>
    { member_id := rowGetD row "member_id" ""
      first_name := pyStrip (rowGetD row "first_name" "")
      last_name := pyStrip (rowGetD row "last_name" "")
      email := rowGet row "email"
      age := age
      gender := rowGet row "gender" }

/-- The whole row loop of `load_from_csv`: stops at the first raised
exception, otherwise returns the loaded member list. -/
def loadMembers (rows : List (List (String × String))) : Except String (List Member) :=
  rows.mapM memberFromRow

/-! ### Scoring (scoring.py) -/

/-- `RaceType` enum. -/
inductive RaceType
  | RACE_100
  | RACE_75
deriving DecidableEq

/-- `AgeGroup` enum. -/
inductive AgeGroup
  | UNDER_20
  | AGE_20_29
  | AGE_30_39
  | AGE_40_49
  | AGE_50_59
  | AGE_60_69
  | AGE_70_79
  | AGE_80_PLUS
deriving DecidableEq

/-- `AgeGroup.from_age` (scoring.py lines 34-62). -/
def AgeGroup.from_age : Option Int → Option AgeGroup
  | none => none
  | some age =>
    if age ≤ 19 then some AgeGroup.UNDER_20
    else if age ≤ 29 then some AgeGroup.AGE_20_29
    else if age ≤ 39 then some AgeGroup.AGE_30_39
    else if age ≤ 49 then some AgeGroup.AGE_40_49
    else if age ≤ 59 then some AgeGroup.AGE_50_59
    else if age ≤ 69 then some AgeGroup.AGE_60_69
    else if age ≤ 79 then some AgeGroup.AGE_70_79
    else some AgeGroup.AGE_80_PLUS

/-- `PointsConfig` dataclass. -/
structure PointsConfig where
  race_type : RaceType
deriving DecidableEq

/-- `PointsConfig.calculate_overall_points` (scoring.py lines 71-103). -/
def PointsConfig.calculate_overall_points (c : PointsConfig) (place : Int) : Int :=
  match c.race_type with
  | RaceType.RACE_100 =>
    if place = 1 then 100
    else if place ≤ 10 then 100 - (place - 1) * 2
    else if place ≤ 91 then 82 - (place - 10)
    else 1
  | RaceType.RACE_75 =>
    if place = 1 then 75
    else if place ≤ 10 then 75 - (place - 1) * 2
    else if place ≤ 66 then 57 - (place - 10)
    else 1

/-- `PointsConfig.calculate_age_group_points` (scoring.py lines 105-125). -/
def PointsConfig.calculate_age_group_points (c : PointsConfig)
    (place_in_age_group : Int) : Int :=
  let max_points : Int := match c.race_type with
    | RaceType.RACE_100 => 20
    | RaceType.RACE_75 => 15
  if place_in_age_group ≤ max_points then max_points - (place_in_age_group - 1)
  else 1

/-- `RacePoints` dataclass. -/
structure RacePoints where
  member_id : String
  race_name : String
  overall_place : Int
  overall_points : Int
  age_group : Option AgeGroup
  age_group_place : Option Int
  age_group_points : Int
  gender : Option String
deriving DecidableEq

/-- The `(rp.age_group, rp.gender)` grouping key of
`_calculate_age_group_points`. -/
def groupKey (rp : RacePoints) : Option AgeGroup × Option String :=
  (rp.age_group, rp.gender)

/-- Append a tagged finisher to the bucket for its key, preserving the
first-seen key order, as Python's insertion-ordered `dict` grouping does.
The tag (a `Nat`) is the finisher's index in the race-points list and
models Python object identity through the in-place mutation. -/
def addToGroups
    (gs : List ((Option AgeGroup × Option String) × List (Nat × RacePoints)))
    (x : Nat × RacePoints) :
    List ((Option AgeGroup × Option String) × List (Nat × RacePoints)) :=
  match gs with
  | [] => [(groupKey x.2, [x])]
  | (k, g) :: rest =>
    if k = groupKey x.2 then (k, g ++ [x]) :: rest
    else (k, g) :: addToGroups rest x

/-- Ascending-by-overall-place order used for `group_members.sort(key=
lambda x: x.overall_place)`; `insertionSort` with it is stable, matching
Python's stable sort. -/
def placeOrder (x y : Nat × RacePoints) : Prop :=
  x.2.overall_place ≤ y.2.overall_place

instance : DecidableRel placeOrder :=
  fun x y => inferInstanceAs (Decidable (x.2.overall_place ≤ y.2.overall_place))

instance : IsTotal (Nat × RacePoints) placeOrder :=
  ⟨fun a b => le_total a.2.overall_place b.2.overall_place⟩

instance : IsTrans (Nat × RacePoints) placeOrder :=
  ⟨fun _ _ _ h1 h2 => le_trans h1 h2⟩

/-- The field update applied to the finisher ranked `idx` (0-based) within
its subgroup (scoring.py lines 229-231, with `enumerate(..., start=1)`). -/
def updRP (config : PointsConfig) (idx : Nat) (rp : RacePoints) : RacePoints :=
  { rp with
    age_group_place := some ((idx : Int) + 1)
    age_group_points := config.calculate_age_group_points ((idx : Int) + 1) }

/-- Process one age-group/gender bucket (scoring.py lines 224-231): sort by
overall place and assign 1-based rank and points; tags ride along. -/
def assignGroup (config : PointsConfig) (g : List (Nat × RacePoints)) :
    List (Nat × RacePoints) :=
  (List.insertionSort placeOrder g).enum.map fun p => (p.2.1, updRP config p.1 p.2.2)

/-- The bucket stored for key `k` in a grouping list (there is at most one,
as keys are never duplicated by `addToGroups`). -/
def bucketF (k : Option AgeGroup × Option String)
    (gs : List ((Option AgeGroup × Option String) × List (Nat × RacePoints))) :
    List (Nat × RacePoints) :=
  match gs.find? (fun p => p.1 == k) with
  | some p => p.2
  | none => []

/-- `PointsCalculator._calculate_age_group_points` (scoring.py lines
205-231).  The Python code mutates the shared `RacePoints` objects in
place; this is modelled by tagging each entry with its index, grouping and
updating the tagged entries, and reading the update back in index order. -/
def calculateAgeGroupPointsList (config : PointsConfig)
    (race_points : List RacePoints) : List RacePoints :=
  let tagged := race_points.enum
  let groups := tagged.foldl addToGroups []
  let updated := (groups.map (fun kg => assignGroup config kg.2)).flatten
  tagged.map fun p => (((updated.find? (fun x => x.1 == p.1)).map Prod.snd).getD p.2)

/-- `PointsCalculator.calculate_race_points` (scoring.py lines 158-203):
build a `RacePoints` entry per matched finisher, then assign age-group
points. -/
def calculate_race_points (config : PointsConfig)
    (match_results : List MatchResult) (race_name : String) : List RacePoints :=
  let matched_results :=
    match_results.filter (fun m => m.matched && m.member.isSome)
  let race_points := matched_results.filterMap fun mr =>
    mr.member.map fun mem =>
      { member_id := mem.member_id
        race_name := race_name
        overall_place := mr.race_result.place
        overall_points := config.calculate_overall_points mr.race_result.place
        age_group := AgeGroup.from_age mem.age
        age_group_place := none
        age_group_points := 0
        gender := mem.gender }
  calculateAgeGroupPointsList config race_points

/-- Spec-side description of the age-group assignment, for the refinement
theorem: partition the finishers into `(age-group, gender)` subgroups,
sort each subgroup by overall place ascending (ties kept in list order, as
a stable sort does), number them `1..k`, and award `ceiling − (rank − 1)`
points with a floor of 1 (ceiling 15 for 75-point races, 20 for 100-point
races). -/
def specAgeGroupPoints (config : PointsConfig)
    (race_points : List RacePoints) : List RacePoints :=
  let tagged := race_points.enum
  let ceiling : Int := match config.race_type with
    | RaceType.RACE_100 => 20
    | RaceType.RACE_75 => 15
  tagged.map fun p =>
    let subgroup :=
      List.insertionSort placeOrder (tagged.filter (fun x => groupKey x.2 == groupKey p.2))
    let rank : Int := ((subgroup.findIdx (fun x => x.1 == p.1) : Int)) + 1
    { p.2 with
      age_group_place := some rank
      age_group_points := max 1 (ceiling - (rank - 1)) }

/-! ### Concrete fixtures for witnesses and counterexamples -/

/-- The spec's scenario registry: Jeffrey Davis. -/
def memJeffreyDavis : Member := ⟨"M001", "Jeffrey", "Davis", none, none, none⟩

/-- The spec's scenario registry: Robert Wilson. -/
def memRobertWilson : Member := ⟨"M002", "Robert", "Wilson", none, none, none⟩

/-- The spec's scenario registry, no corrections. -/
def regScenario : MemberRegistry := ⟨[memJeffreyDavis, memRobertWilson], []⟩

/-- Two members with near-identical short names. -/
def memAlBa : Member := ⟨"M1", "Al", "Ba", none, none, none⟩

/-- Two members with near-identical short names. -/
def memAlBc : Member := ⟨"M2", "Al", "Bc", none, none, none⟩

/-- Registry with two members whose names are one letter apart. -/
def regClose : MemberRegistry := ⟨[memAlBa, memAlBc], []⟩

/-- First of two members sharing the same full name. -/
def memJohnSmith1 : Member := ⟨"M1", "John", "Smith", none, none, none⟩

/-- Second of two members sharing the same full name. -/
def memJohnSmith2 : Member := ⟨"M2", "John", "Smith", none, none, none⟩

/-- Registry with duplicate member names. -/
def regDup : MemberRegistry := ⟨[memJohnSmith1, memJohnSmith2], []⟩

/-- Registry where a correction maps the alias "bob" to John Smith. -/
def regBobCorr : MemberRegistry := ⟨[memJohnSmith1], [("bob", "John Smith")]⟩

/-- Scenario registry plus the correction "jeff davis" → "Jeffrey Davis". -/
def regJeffCorr : MemberRegistry :=
  ⟨[memJeffreyDavis, memRobertWilson], [("jeff davis", "Jeffrey Davis")]⟩

/-- Registry whose correction maps to a name with no exact member match. -/
def regJeffCorrMiss : MemberRegistry :=
  ⟨[memRobertWilson], [("jeff davis", "Jeffrey Davis")]⟩

/-- A roster row with present-but-empty optional fields. -/
def rowEmptyOpt : List (String × String) :=
  [("member_id", "M001"), ("first_name", "John"), ("last_name", "Doe"),
   ("email", ""), ("age", ""), ("gender", "")]

/-- A roster row with a non-empty, non-numeric age. -/
def rowBadAge : List (String × String) :=
  [("member_id", "M001"), ("first_name", "John"), ("last_name", "Doe"),
   ("email", ""), ("age", "abc"), ("gender", "")]

/-- The member loaded from `rowEmptyOpt`. -/
def memJohnDoe : Member := ⟨"M001", "John", "Doe", some "", none, some ""⟩

/-- The spec's scenario finisher. -/
def rrJeffDavis : RaceResult := ⟨1, "Jeff Davis", "20:00", none, none, none⟩

/-- A matcher over the scenario registry with the default thresholds. -/
def fmScenario : FinisherMatcher := ⟨regScenario, 7/10, 1/20⟩

/-- A member in the M 30-39 subgroup. -/
def memM32 : Member := ⟨"A1", "Al", "Ba", none, some 32, some "M"⟩

/-- Another member in the M 30-39 subgroup. -/
def memM35 : Member := ⟨"A2", "Cy", "Da", none, some 35, some "M"⟩

/-- Match outcome placing `memM32` at overall place 1. -/
def mrPlace1 : MatchResult :=
  ⟨⟨1, "Al Ba", "t", none, none, none⟩, some memM32, true, 1, false⟩

/-- Match outcome placing `memM35` at overall place 5. -/
def mrPlace5 : MatchResult :=
  ⟨⟨5, "Cy Da", "t", none, none, none⟩, some memM35, true, 1, false⟩

/-! ### Facts about the LCS / indel scorer -/

theorem lcsL_nil_right : ∀ l : List Char, lcsL l [] = 0
  | [] => rfl
  | _ :: _ => rfl

theorem lcsL_cons_cons (a b : Char) (as bs : List Char) :
    lcsL (a :: as) (b :: bs) =
      if a = b then lcsL as bs + 1
      else max (lcsL (a :: as) bs) (lcsL as (b :: bs)) := rfl

theorem lcsL_le_left : ∀ s t : List Char, lcsL s t ≤ s.length := by
  intro s
  induction s with
  | nil => intro t; simp [lcsL]
  | cons a as ih =>
    intro t
    induction t with
    | nil => simp [lcsL_nil_right]
    | cons b bs iht =>
      rw [lcsL_cons_cons]
      have h1 := ih bs
      have h2 := ih (b :: bs)
      have h3 := iht
      split
      · simp only [List.length_cons]; omega
      · rw [max_le_iff]; simp only [List.length_cons] at *; omega

theorem lcsL_le_right : ∀ s t : List Char, lcsL s t ≤ t.length := by
  intro s
  induction s with
  | nil => intro t; simp [lcsL]
  | cons a as ih =>
    intro t
    induction t with
    | nil => simp [lcsL_nil_right]
    | cons b bs iht =>
      rw [lcsL_cons_cons]
      have h1 := ih bs
      have h2 := ih (b :: bs)
      have h3 := iht
      split
      · simp only [List.length_cons]; omega
      · rw [max_le_iff]; simp only [List.length_cons] at *; omega

theorem lcsL_self : ∀ s : List Char, lcsL s s = s.length := by
  intro s
  induction s with
  | nil => rfl
  | cons a as ih => rw [lcsL_cons_cons]; simp [ih]

theorem lcsL_full : ∀ s t : List Char,
    lcsL s t = s.length → lcsL s t = t.length → s = t := by
  intro s
  induction s with
  | nil =>
    intro t h1 h2
    simp [lcsL] at h2
    exact (List.length_eq_zero.mp h2.symm).symm
  | cons a as ih =>
    intro t h1 h2
    cases t with
    | nil => simp [lcsL_nil_right] at h1
    | cons b bs =>
      rw [lcsL_cons_cons] at h1 h2
      by_cases hab : a = b
      · subst hab
        rw [if_pos rfl] at h1 h2
        simp only [List.length_cons] at h1 h2
        have := ih bs (by omega) (by omega)
        rw [this]
      · rw [if_neg hab] at h1 h2
        have u1 := lcsL_le_right (a :: as) bs
        have u2 := lcsL_le_left as (b :: bs)
        simp only [List.length_cons] at h1 h2
        rcases max_choice (lcsL (a :: as) bs) (lcsL as (b :: bs)) with h | h <;>
          rw [h] at h1 h2 <;> omega

theorem indelDistL_eq_zero_iff (s t : List Char) :
    indelDistL s t = 0 ↔ s = t := by
  constructor
  · intro h
    have u1 := lcsL_le_left s t
    have u2 := lcsL_le_right s t
    unfold indelDistL at h
    exact lcsL_full s t (by omega) (by omega)
  · intro h
    subst h
    unfold indelDistL
    rw [lcsL_self]
    omega

theorem indelDistL_le (s t : List Char) :
    indelDistL s t ≤ s.length + t.length := Nat.sub_le _ _

theorem tokenSortScore_nonneg (a b : String) : 0 ≤ tokenSortScore a b := by
  unfold tokenSortScore
  split
  · norm_num
  · rename_i htot
    have hle := indelDistL_le (tokenSortKeyL a.data) (tokenSortKeyL b.data)
    have hpos : (0 : ℚ) <
        ((tokenSortKeyL a.data).length + (tokenSortKeyL b.data).length : ℕ) := by
      exact_mod_cast Nat.pos_of_ne_zero htot
    rw [sub_nonneg, div_le_one hpos]
    exact_mod_cast hle

theorem tokenSortScore_le_one (a b : String) : tokenSortScore a b ≤ 1 := by
  unfold tokenSortScore
  split
  · norm_num
  · rename_i htot
    have hpos : (0 : ℚ) <
        ((tokenSortKeyL a.data).length + (tokenSortKeyL b.data).length : ℕ) := by
      exact_mod_cast Nat.pos_of_ne_zero htot
    have : (0 : ℚ) ≤ (indelDistL (tokenSortKeyL a.data) (tokenSortKeyL b.data) : ℚ) /
        ((tokenSortKeyL a.data).length + (tokenSortKeyL b.data).length : ℕ) := by
      positivity
    linarith

theorem tokenSortScore_eq_one_iff (a b : String) :
    tokenSortScore a b = 1 ↔ tokenSortKeyL a.data = tokenSortKeyL b.data := by
  unfold tokenSortScore
  split
  · rename_i htot
    have h1 : (tokenSortKeyL a.data).length = 0 := by omega
    have h2 : (tokenSortKeyL b.data).length = 0 := by omega
    simp only [List.length_eq_zero] at h1 h2
    simp [h1, h2]
  · rename_i htot
    have hpos : (0 : ℚ) <
        ((tokenSortKeyL a.data).length + (tokenSortKeyL b.data).length : ℕ) := by
      exact_mod_cast Nat.pos_of_ne_zero htot
    rw [sub_eq_self, div_eq_zero_iff]
    constructor
    · intro h
      rcases h with h | h
      · exact (indelDistL_eq_zero_iff _ _).mp (by exact_mod_cast h)
      · exact absurd h (by positivity)
    · intro h
      left
      exact_mod_cast (indelDistL_eq_zero_iff
        (tokenSortKeyL a.data) (tokenSortKeyL b.data)).mpr h

/-! ### The token order is a linear order -/

theorem charToNat_inj {a b : Char} (h : a.toNat = b.toNat) : a = b :=
  Char.eq_of_val_eq (UInt32.ext h)

theorem strLtB_irrefl : ∀ x : List Char, strLtB x x = false := by
  intro x
  induction x with
  | nil => rfl
  | cons a as ih => simp [strLtB, ih]

theorem strLtB_cons_true_iff (a b : Char) (as bs : List Char) :
    strLtB (a :: as) (b :: bs) = true ↔
      (a.toNat < b.toNat ∨ (a.toNat = b.toNat ∧ strLtB as bs = true)) := by
  simp only [strLtB]
  split_ifs with h1 h2
  · simp [h1]
  · constructor
    · intro h; exact absurd h (by simp)
    · intro h; rcases h with h | ⟨h, _⟩ <;> omega
  · have he : a.toNat = b.toNat := by omega
    simp [he, h1]

theorem strLtB_cons_false_iff (a b : Char) (as bs : List Char) :
    strLtB (a :: as) (b :: bs) = false ↔
      (b.toNat < a.toNat ∨ (a.toNat = b.toNat ∧ strLtB as bs = false)) := by
  simp only [strLtB]
  split_ifs with h1 h2
  · constructor
    · intro h; exact absurd h (by simp)
    · intro h; rcases h with h | ⟨h, _⟩ <;> omega
  · simp [h2]
  · have he : a.toNat = b.toNat := by omega
    simp [he, h2]

theorem strLtB_trans : ∀ x y z : List Char,
    strLtB x y = true → strLtB y z = true → strLtB x z = true := by
  intro x
  induction x with
  | nil =>
    intro y z h1 h2
    cases y with
    | nil => simp [strLtB] at h1
    | cons b bs =>
      cases z with
      | nil => simp [strLtB] at h2
      | cons c cs => simp [strLtB]
  | cons a as ih =>
    intro y z h1 h2
    cases y with
    | nil => simp [strLtB] at h1
    | cons b bs =>
      cases z with
      | nil => simp [strLtB] at h2
      | cons c cs =>
        rw [strLtB_cons_true_iff] at h1 h2 ⊢
        rcases h1 with h1 | ⟨e1, h1⟩ <;> rcases h2 with h2 | ⟨e2, h2⟩
        · left; omega
        · left; omega
        · left; omega
        · exact Or.inr ⟨by omega, ih bs cs h1 h2⟩

theorem strLtB_eq_of_not : ∀ x y : List Char,
    strLtB x y = false → strLtB y x = false → x = y := by
  intro x
  induction x with
  | nil =>
    intro y h1 h2
    cases y with
    | nil => rfl
    | cons b bs => simp [strLtB] at h1
  | cons a as ih =>
    intro y h1 h2
    cases y with
    | nil => simp [strLtB] at h2
    | cons b bs =>
      rw [strLtB_cons_false_iff] at h1 h2
      rcases h1 with h1 | ⟨e1, h1⟩ <;> rcases h2 with h2 | ⟨e2, h2⟩
      · omega
      · omega
      · omega
      · have hab : a = b := charToNat_inj e1
        subst hab
        rw [ih bs h1 h2]

instance : IsTrans (List Char) tokenOrder where
  trans := by
    intro x y z h1 h2
    unfold tokenOrder at *
    by_contra hzx
    have hzx' : strLtB z x = true := by
      cases h : strLtB z x
      · exact absurd h hzx
      · rfl
    cases hyz : strLtB y z with
    | true =>
      have := strLtB_trans y z x hyz hzx'
      rw [this] at h1
      exact Bool.noConfusion h1
    | false =>
      have := strLtB_eq_of_not y z hyz h2
      subst this
      rw [hzx'] at h1
      exact Bool.noConfusion h1

instance : IsTotal (List Char) tokenOrder where
  total := by
    intro x y
    unfold tokenOrder
    cases h : strLtB y x with
    | false => exact Or.inl rfl
    | true =>
      right
      by_contra hxy
      have hxy' : strLtB x y = true := by
        cases h2 : strLtB x y
        · exact absurd h2 hxy
        · rfl
      have := strLtB_trans x y x hxy' h
      rw [strLtB_irrefl] at this
      exact Bool.noConfusion this

instance : IsAntisymm (List Char) tokenOrder where
  antisymm := by
    intro x y h1 h2
    exact strLtB_eq_of_not x y h2 h1

/-! ### Tokenization is invariant under stripping, and commutes with
lower-casing -/

theorem tokAux_all_ws : ∀ w acc : List Char,
    (∀ c ∈ w, c.isWhitespace = true) → tokAux w acc = emitTok acc := by
  intro w
  induction w with
  | nil => intro acc _; rfl
  | cons c w' ih =>
    intro acc h
    have hc : c.isWhitespace = true := h c (List.mem_cons_self c w')
    show (if c.isWhitespace then emitTok acc ++ tokAux w' [] else tokAux w' (c :: acc)) = _
    rw [hc, if_pos rfl, ih [] (fun x hx => h x (List.mem_cons_of_mem c hx))]
    simp [emitTok]

theorem tokAux_append_ws : ∀ l w acc : List Char,
    (∀ c ∈ w, c.isWhitespace = true) → tokAux (l ++ w) acc = tokAux l acc := by
  intro l
  induction l with
  | nil =>
    intro w acc h
    rw [List.nil_append]
    exact tokAux_all_ws w acc h
  | cons c l' ih =>
    intro w acc h
    show (if c.isWhitespace then emitTok acc ++ tokAux (l' ++ w) [] else tokAux (l' ++ w) (c :: acc)) =
      (if c.isWhitespace then emitTok acc ++ tokAux l' [] else tokAux l' (c :: acc))
    rw [ih w [] h, ih w (c :: acc) h]

theorem tokAux_leading_ws : ∀ w l : List Char,
    (∀ c ∈ w, c.isWhitespace = true) → tokAux (w ++ l) [] = tokAux l [] := by
  intro w
  induction w with
  | nil => intro l _; rfl
  | cons c w' ih =>
    intro l h
    have hc : c.isWhitespace = true := h c (List.mem_cons_self c w')
    show (if c.isWhitespace then emitTok [] ++ tokAux (w' ++ l) [] else _) = _
    rw [hc, if_pos rfl, ih l (fun x hx => h x (List.mem_cons_of_mem c hx))]
    rfl

theorem tokensL_dropWhile (l : List Char) :
    tokensL (l.dropWhile Char.isWhitespace) = tokensL l := by
  conv_rhs => rw [← List.takeWhile_append_dropWhile Char.isWhitespace l]
  exact (tokAux_leading_ws _ _ (fun c hc => List.mem_takeWhile_imp hc)).symm

theorem tokensL_stripL (l : List Char) : tokensL (stripL l) = tokensL l := by
  have key : tokensL (stripL l) = tokensL (l.dropWhile Char.isWhitespace) := by
    unfold stripL tokensL
    conv_rhs =>
      rw [← List.reverse_reverse (l.dropWhile Char.isWhitespace),
        ← List.takeWhile_append_dropWhile Char.isWhitespace
          (l.dropWhile Char.isWhitespace).reverse,
        List.reverse_append]
    rw [tokAux_append_ws]
    intro c hc
    rw [List.mem_reverse] at hc
    exact List.mem_takeWhile_imp hc
  rw [key, tokensL_dropWhile]

theorem isWs_pyLowerChar (c : Char) :
    (pyLowerChar c).isWhitespace = c.isWhitespace := by
  unfold pyLowerChar
  cases hf : upperLowerPairs.find? (fun p => p.1 == c) with
  | none => rfl
  | some p =>
    have hmem : p ∈ upperLowerPairs := List.mem_of_find?_eq_some hf
    have hpc : p.1 = c := by
      have := List.find?_some hf
      exact eq_of_beq this
    have hws : ∀ q ∈ upperLowerPairs,
        q.2.isWhitespace = false ∧ q.1.isWhitespace = false := by decide
    rcases hws p hmem with ⟨h2, h1⟩
    show p.2.isWhitespace = c.isWhitespace
    rw [h2, ← hpc, h1]

theorem stripL_map_lower (l : List Char) :
    stripL (l.map pyLowerChar) = (stripL l).map pyLowerChar := by
  have hws : (Char.isWhitespace ∘ pyLowerChar) = Char.isWhitespace := by
    funext c
    exact isWs_pyLowerChar c
  unfold stripL
  rw [List.dropWhile_map, hws, ← List.map_reverse, List.dropWhile_map, hws,
    ← List.map_reverse]

theorem tokensL_lower_strip (l : List Char) :
    tokensL ((stripL l).map pyLowerChar) = tokensL (l.map pyLowerChar) := by
  rw [← stripL_map_lower, tokensL_stripL]

theorem tokenSortKeyL_strip (s : String) :
    tokenSortKeyL (pyLower (pyStrip s)).data = tokenSortKeyL (pyLower s).data := by
  show tokenSortKeyL ((stripL s.data).map pyLowerChar) =
    tokenSortKeyL (s.data.map pyLowerChar)
  unfold tokenSortKeyL
  rw [tokensL_lower_strip]

/-! ### Facts about the fuzzy scoring loop -/

theorem computeScores_ok (nn : String) : ∀ (ms : List Member)
    (scores : List (Member × ℚ)), computeScores nn ms = Except.ok scores →
    scores = ms.map (fun m => (m, memberScore nn m)) := by
  intro ms
  induction ms with
  | nil =>
    intro scores h
    simp only [computeScores] at h
    injection h with h
    rw [← h]
    rfl
  | cons m ms ih =>
    intro scores h
    simp only [computeScores] at h
    by_cases hs : tokenSortScore nn (pyLower m.full_name) = 1
    · rw [if_pos hs] at h
      exact absurd h (by simp)
    · rw [if_neg hs] at h
      cases hcs : computeScores nn ms with
      | error m' => rw [hcs] at h; simp [Except.map] at h
      | ok rest =>
        rw [hcs] at h
        simp only [Except.map] at h
        injection h with h
        rw [← h, List.map_cons, ih rest hcs]
        rfl

theorem computeScores_error (nn : String) : ∀ (ms : List Member) (m : Member),
    computeScores nn ms = Except.error m →
    m ∈ ms ∧ memberScore nn m = 1 := by
  intro ms
  induction ms with
  | nil =>
    intro m h
    simp [computeScores] at h
  | cons m' ms ih =>
    intro m h
    simp only [computeScores] at h
    by_cases hs : tokenSortScore nn (pyLower m'.full_name) = 1
    · rw [if_pos hs] at h
      injection h with h
      subst h
      exact ⟨List.mem_cons_self m' ms, hs⟩
    · rw [if_neg hs] at h
      cases hcs : computeScores nn ms with
      | error e =>
        rw [hcs] at h
        simp only [Except.map] at h
        injection h with h
        subst h
        rcases ih _ hcs with ⟨hm, hsc⟩
        exact ⟨List.mem_cons_of_mem m' hm, hsc⟩
      | ok rest =>
        rw [hcs] at h
        simp [Except.map] at h

theorem computeScores_error_of_mem (nn : String) : ∀ (ms : List Member)
    (m : Member), m ∈ ms → memberScore nn m = 1 →
    ∃ m', computeScores nn ms = Except.error m' := by
  intro ms
  induction ms with
  | nil => intro m h _; simp at h
  | cons m' ms ih =>
    intro m hmem hsc
    by_cases hs : tokenSortScore nn (pyLower m'.full_name) = 1
    · exact ⟨m', by simp only [computeScores]; rw [if_pos hs]⟩
    · rcases List.mem_cons.mp hmem with h | h
      · subst h; exact absurd hsc hs
      · rcases ih m h hsc with ⟨m'', hcs⟩
        refine ⟨m'', ?_⟩
        simp only [computeScores]
        rw [if_neg hs, hcs]
        rfl

theorem tokenSortKey_eq_iff (x y : String) :
    tokenSortKey x = tokenSortKey y ↔ tokenSortKeyL x.data = tokenSortKeyL y.data := by
  constructor
  · intro h
    have := congrArg String.data h
    exact this
  · intro h
    show String.mk (tokenSortKeyL x.data) = String.mk (tokenSortKeyL y.data)
    rw [h]

theorem computeScores_error_of_find (nn : String) : ∀ (ms : List Member)
    (m : Member),
    ms.find? (fun m' => tokenSortKey (pyLower m'.full_name) == tokenSortKey nn) =
      some m →
    computeScores nn ms = Except.error m := by
  intro ms
  induction ms with
  | nil => intro m h; simp at h
  | cons m' ms ih =>
    intro m h
    simp only [List.find?] at h
    by_cases hp : (tokenSortKey (pyLower m'.full_name) == tokenSortKey nn) = true
    · rw [hp] at h
      injection h with h
      subst h
      have hkey : tokenSortKeyL nn.data = tokenSortKeyL (pyLower m'.full_name).data := by
        have := (tokenSortKey_eq_iff _ _).mp (eq_of_beq hp)
        exact this.symm
      have hsc : tokenSortScore nn (pyLower m'.full_name) = 1 :=
        (tokenSortScore_eq_one_iff _ _).mpr hkey
      simp only [computeScores]
      rw [if_pos hsc]
    · rw [Bool.not_eq_true] at hp
      rw [hp] at h
      have hsc : ¬ tokenSortScore nn (pyLower m'.full_name) = 1 := by
        intro hone
        have hkey := (tokenSortScore_eq_one_iff nn (pyLower m'.full_name)).mp hone
        have htrue : (tokenSortKey (pyLower m'.full_name) == tokenSortKey nn) = true :=
          beq_iff_eq.mpr ((tokenSortKey_eq_iff _ _).mpr hkey.symm)
        rw [hp] at htrue
        exact Bool.noConfusion htrue
      simp only [computeScores]
      rw [if_neg hsc, ih m h]
      rfl

/-! ### The best fuzzy score -/

theorem le_bestScore (nn : String) : ∀ (ms : List Member) (m : Member),
    m ∈ ms → memberScore nn m ≤ bestScore nn ms := by
  intro ms
  induction ms with
  | nil => intro m h; simp at h
  | cons m' ms ih =>
    intro m hmem
    rcases List.mem_cons.mp hmem with h | h
    · subst h
      exact le_max_left _ _
    · exact le_trans (ih m h) (le_max_right _ _)

theorem bestScore_le (nn : String) : ∀ (ms : List Member) (c : ℚ), 0 ≤ c →
    (∀ m ∈ ms, memberScore nn m ≤ c) → bestScore nn ms ≤ c := by
  intro ms
  induction ms with
  | nil => intro c h0 _; exact h0
  | cons m' ms ih =>
    intro c h0 h
    exact max_le (h m' (List.mem_cons_self m' ms))
      (ih c h0 (fun m hm => h m (List.mem_cons_of_mem m' hm)))

theorem bestScore_nonneg (nn : String) (ms : List Member) :
    0 ≤ bestScore nn ms := by
  induction ms with
  | nil => exact le_refl 0
  | cons m' ms ih => exact le_trans ih (le_max_right _ _)

/-- The head of the sorted score list is the best fuzzy score. -/
theorem sorted_head_bestScore (nn : String) (ms : List Member)
    (scores : List (Member × ℚ)) (bm : Member) (bs : ℚ)
    (rest : List (Member × ℚ))
    (hok : computeScores nn ms = Except.ok scores)
    (hs : List.insertionSort scoreDescOrder scores = (bm, bs) :: rest) :
    bs = bestScore nn ms := by
  have hmap := computeScores_ok nn ms scores hok
  have hperm : List.Perm (List.insertionSort scoreDescOrder scores) scores :=
    List.perm_insertionSort scoreDescOrder scores
  have hsorted : List.Sorted scoreDescOrder
      (List.insertionSort scoreDescOrder scores) :=
    List.sorted_insertionSort scoreDescOrder scores
  rw [hs] at hperm hsorted
  apply le_antisymm
  · -- bs is the score of some member
    have hmem : (bm, bs) ∈ scores := hperm.mem_iff.mp (List.mem_cons_self _ _)
    rw [hmap] at hmem
    rcases List.mem_map.mp hmem with ⟨m, hm, he⟩
    have : bs = memberScore nn m := by
      have := congrArg Prod.snd he
      exact this.symm
    rw [this]
    exact le_bestScore nn ms m hm
  · -- every member's score is at most bs
    have h0 : 0 ≤ bs := by
      have hmem : (bm, bs) ∈ scores := hperm.mem_iff.mp (List.mem_cons_self _ _)
      rw [hmap] at hmem
      rcases List.mem_map.mp hmem with ⟨m, _, he⟩
      have : bs = memberScore nn m := by
        have := congrArg Prod.snd he
        exact this.symm
      rw [this]
      exact tokenSortScore_nonneg _ _
    apply bestScore_le nn ms bs h0
    intro m hm
    have hmem : (m, memberScore nn m) ∈ scores := by
      rw [hmap]
      exact List.mem_map.mpr ⟨m, hm, rfl⟩
    have hmem' : (m, memberScore nn m) ∈ (bm, bs) :: rest :=
      hperm.mem_iff.mpr hmem
    rcases List.mem_cons.mp hmem' with h | h
    · rw [Prod.mk.injEq] at h
      exact le_of_eq h.2
    · have hrel := List.rel_of_sorted_cons hsorted (m, memberScore nn m) h
      exact hrel


/-! ### Case-analysis helpers for find_by_name -/

theorem max_one_cases (x : Int) :
    (1 ≤ x ∧ max 1 x = x) ∨ (x ≤ 1 ∧ max 1 x = 1) := by
  rcases le_total 1 x with h | h
  · exact Or.inl ⟨h, max_eq_right h⟩
  · exact Or.inr ⟨h, max_eq_left h⟩

/-- A matched `find_by_name` outcome has confidence at least
`min_confidence`, provided `min_confidence ≤ 1`. -/
theorem find_by_name_matched_conf (r : MemberRegistry) (name : String)
    (minc amb : ℚ) (hmc : minc ≤ 1) :
    (r.find_by_name name minc amb).member.isSome = true →
    minc ≤ (r.find_by_name name minc amb).confidence := by
  unfold MemberRegistry.find_by_name fuzzyPhase
  split
  · intro h; simp at h
  · split
    · intro _; exact hmc
    · split
      · intro _; exact hmc
      · split
        · intro h; simp at h
        · split
          · intro h; simp at h
          · rename_i hlt
            intro _
            exact le_of_not_lt hlt

/-- An unmatched `find_by_name` outcome is never flagged ambiguous. -/
theorem find_by_name_none_not_ambiguous (r : MemberRegistry) (name : String)
    (minc amb : ℚ) :
    (r.find_by_name name minc amb).member = none →
    (r.find_by_name name minc amb).is_ambiguous = false := by
  unfold MemberRegistry.find_by_name fuzzyPhase
  split
  · intro _; rfl
  · split
    · intro h; simp at h
    · split
      · intro h; simp at h
      · split
        · intro _; rfl
        · split
          · intro _; rfl
          · intro h; simp at h

/-! ### Claim theorems -/

/-- Claim C10: for every input name, registry, and configuration, an
unmatched outcome from `find_by_name` always carries `is_ambiguous = false`
— the ambiguity flag can only be set on an accepted match, whether the
non-match came from an empty registry or a best score below
`min_confidence`. -/
theorem unmatched_never_ambiguous (r : MemberRegistry) (name : String)
    (minc amb : ℚ)
    (h : (r.find_by_name name minc amb).member = none) :
    (r.find_by_name name minc amb).is_ambiguous = false :=
  find_by_name_none_not_ambiguous r name minc amb h

/-- Witness for C10: the empty registry yields an unmatched, unambiguous
outcome. -/
theorem unmatched_never_ambiguous_witness :
    ((MemberRegistry.mk [] []).find_by_name "Jeff Davis" (7/10) (1/20)).member
        = none ∧
    ((MemberRegistry.mk [] []).find_by_name "Jeff Davis" (7/10) (1/20)).is_ambiguous
        = false :=
  ⟨by with_unfolding_all decide,
    unmatched_never_ambiguous (MemberRegistry.mk [] []) "Jeff Davis" (7/10) (1/20)
      (by with_unfolding_all decide)⟩

/-- Claim C1: for every registry, configuration, and input name, the
outcome of `match_finisher` (wrapping `find_by_name`) satisfies: if
`matched` is true then `member` is non-null and `confidence ≥
min_confidence`, and if `matched` is false then `member` is null.
Precondition: `min_confidence ≤ 1.0`. -/
theorem match_outcome_invariant (fm : FinisherMatcher) (rr : RaceResult)
    (hmc : fm.min_confidence ≤ 1) :
    ((fm.match_finisher rr).matched = true →
      (fm.match_finisher rr).member ≠ none ∧
      fm.min_confidence ≤ (fm.match_finisher rr).confidence) ∧
    ((fm.match_finisher rr).matched = false →
      (fm.match_finisher rr).member = none) := by
  constructor
  · intro h
    have hs : (fm.member_registry.find_by_name rr.name fm.min_confidence
        fm.ambiguity_threshold).member.isSome = true := h
    constructor
    · show (fm.member_registry.find_by_name rr.name fm.min_confidence
        fm.ambiguity_threshold).member ≠ none
      exact Option.isSome_iff_ne_none.mp hs
    · exact find_by_name_matched_conf _ _ _ _ hmc hs
  · intro h
    have hs : (fm.member_registry.find_by_name rr.name fm.min_confidence
        fm.ambiguity_threshold).member.isSome = false := h
    show (fm.member_registry.find_by_name rr.name fm.min_confidence
        fm.ambiguity_threshold).member = none
    cases ho : (fm.member_registry.find_by_name rr.name fm.min_confidence
        fm.ambiguity_threshold).member with
    | none => rfl
    | some m => rw [ho] at hs; exact Bool.noConfusion hs

/-- Witness for C1: the scenario matcher on "Jeff Davis". -/
theorem match_outcome_invariant_witness :
    fmScenario.min_confidence ≤ 1 ∧
    (((fmScenario.match_finisher rrJeffDavis).matched = true →
      (fmScenario.match_finisher rrJeffDavis).member ≠ none ∧
      fmScenario.min_confidence ≤ (fmScenario.match_finisher rrJeffDavis).confidence) ∧
    ((fmScenario.match_finisher rrJeffDavis).matched = false →
      (fmScenario.match_finisher rrJeffDavis).member = none)) :=
  ⟨by with_unfolding_all decide,
    match_outcome_invariant fmScenario rrJeffDavis (by with_unfolding_all decide)⟩

/-- Claim C3: on a non-empty registry, if the normalized input name is a
correction key and some member's lower-cased full name equals the mapped
canonical name, `find_by_name` returns the (first) such member with
confidence 1.0 and `is_ambiguous = false`, regardless of fuzzy scores; if
the correction maps to a name with no exact member match, resolution falls
through to the fuzzy phase instead of failing. -/
theorem correction_override (r : MemberRegistry) (name : String)
    (minc amb : ℚ) (hne : r.members ≠ []) :
    (∀ c m, r.name_corrections.lookup (pyLower (pyStrip name)) = some c →
      r.members.find? (fun m' => pyLower m'.full_name == pyLower c) = some m →
      r.find_by_name name minc amb = ⟨some m, 1, false⟩) ∧
    (∀ c, r.name_corrections.lookup (pyLower (pyStrip name)) = some c →
      r.members.find? (fun m' => pyLower m'.full_name == pyLower c) = none →
      r.find_by_name name minc amb =
        fuzzyPhase r.members (pyLower (pyStrip name)) minc amb) := by
  have hemp : ¬ (r.members.isEmpty = true) := by
    intro hx
    exact hne (List.isEmpty_iff.mp hx)
  constructor
  · intro c m hc hf
    have hhit : correctionHit r (pyLower (pyStrip name)) = some m := by
      unfold correctionHit
      rw [hc]
      exact hf
    unfold MemberRegistry.find_by_name
    rw [if_neg hemp, hhit]
  · intro c hc hf
    have hhit : correctionHit r (pyLower (pyStrip name)) = none := by
      unfold correctionHit
      rw [hc]
      exact hf
    unfold MemberRegistry.find_by_name
    rw [if_neg hemp, hhit]

/-- Witness for C3: the correction "jeff davis" → "Jeffrey Davis" resolves
"Jeff Davis" to Jeffrey Davis at confidence 1.0 (first conjunct), and with
no exactly-matching member the same lookup falls through to the fuzzy
phase (second conjunct, on `regJeffCorrMiss`). -/
theorem correction_override_witness :
    (regJeffCorr.members ≠ [] ∧
      regJeffCorr.find_by_name "Jeff Davis" (7/10) (1/20) =
        ⟨some memJeffreyDavis, 1, false⟩) ∧
    (regJeffCorrMiss.members ≠ [] ∧
      regJeffCorrMiss.find_by_name "Jeff Davis" (7/10) (1/20) =
        fuzzyPhase regJeffCorrMiss.members (pyLower (pyStrip "Jeff Davis"))
          (7/10) (1/20)) :=
  ⟨⟨by with_unfolding_all decide,
    (correction_override regJeffCorr "Jeff Davis" (7/10) (1/20)
        (by with_unfolding_all decide)).1 "Jeffrey Davis" memJeffreyDavis
      (by with_unfolding_all decide) (by with_unfolding_all decide)⟩,
   ⟨by with_unfolding_all decide,
    (correction_override regJeffCorrMiss "Jeff Davis" (7/10) (1/20)
        (by with_unfolding_all decide)).2 "Jeffrey Davis"
      (by with_unfolding_all decide) (by with_unfolding_all decide)⟩⟩

/-- Claim C8: for every place `p ≥ 1`, the overall points of a
75-point-tier race follow a two-segment formula with a floor of 1
(decrement-by-2 over places 1-10, decrement-by-1 thereafter), and
analogously for the 100-point tier starting at 100; in particular places
1, 10, 11, 66 and 200 give 75, 57, 56, 1 and 1. -/
theorem overall_points_two_segment (place : Int) (h : 1 ≤ place) :
    (PointsConfig.mk RaceType.RACE_75).calculate_overall_points place =
      max 1 (if place ≤ 10 then 75 - (place - 1) * 2 else 57 - (place - 10)) ∧
    (PointsConfig.mk RaceType.RACE_100).calculate_overall_points place =
      max 1 (if place ≤ 10 then 100 - (place - 1) * 2 else 82 - (place - 10)) ∧
    (PointsConfig.mk RaceType.RACE_75).calculate_overall_points 1 = 75 ∧
    (PointsConfig.mk RaceType.RACE_75).calculate_overall_points 10 = 57 ∧
    (PointsConfig.mk RaceType.RACE_75).calculate_overall_points 11 = 56 ∧
    (PointsConfig.mk RaceType.RACE_75).calculate_overall_points 66 = 1 ∧
    (PointsConfig.mk RaceType.RACE_75).calculate_overall_points 200 = 1 := by
  refine ⟨?_, ?_, by with_unfolding_all decide, by with_unfolding_all decide,
    by with_unfolding_all decide, by with_unfolding_all decide,
    by with_unfolding_all decide⟩ <;>
  · simp only [PointsConfig.calculate_overall_points]
    split_ifs <;>
      rcases max_one_cases _ with ⟨hx, he⟩ | ⟨hx, he⟩ <;> rw [he] <;> omega

/-- Witness for C8: instantiated at place 11. -/
theorem overall_points_two_segment_witness :
    (1 : Int) ≤ 11 ∧
    ((PointsConfig.mk RaceType.RACE_75).calculate_overall_points 11 =
      max 1 (if (11 : Int) ≤ 10 then 75 - (11 - 1) * 2 else 57 - (11 - 10)) ∧
    (PointsConfig.mk RaceType.RACE_100).calculate_overall_points 11 =
      max 1 (if (11 : Int) ≤ 10 then 100 - (11 - 1) * 2 else 82 - (11 - 10)) ∧
    (PointsConfig.mk RaceType.RACE_75).calculate_overall_points 1 = 75 ∧
    (PointsConfig.mk RaceType.RACE_75).calculate_overall_points 10 = 57 ∧
    (PointsConfig.mk RaceType.RACE_75).calculate_overall_points 11 = 56 ∧
    (PointsConfig.mk RaceType.RACE_75).calculate_overall_points 66 = 1 ∧
    (PointsConfig.mk RaceType.RACE_75).calculate_overall_points 200 = 1) :=
  ⟨by norm_num, overall_points_two_segment 11 (by norm_num)⟩



/-- Claim C6: the fuzzy similarity score is invariant under
whitespace-token permutation applied to either argument independently. -/
theorem token_permutation_invariance (a a' b b' : String)
    (ha : List.Perm (tokensL a'.data) (tokensL a.data))
    (hb : List.Perm (tokensL b'.data) (tokensL b.data)) :
    tokenSortScore a' b' = tokenSortScore a b := by
  have key : ∀ x y : String, List.Perm (tokensL x.data) (tokensL y.data) →
      tokenSortKeyL x.data = tokenSortKeyL y.data := by
    intro x y h
    unfold tokenSortKeyL
    congr 1
    exact @List.eq_of_perm_of_sorted (List Char) tokenOrder _ _ _
      ((List.perm_insertionSort _ _).trans
        (h.trans (List.perm_insertionSort tokenOrder (tokensL y.data)).symm))
      (List.sorted_insertionSort _ _) (List.sorted_insertionSort _ _)
  have h1 := key a' a ha
  have h2 := key b' b hb
  unfold tokenSortScore
  rw [h1, h2]

/-- Witness for C6: swapping the two tokens on each side leaves the score
unchanged. -/
theorem token_permutation_invariance_witness :
    List.Perm (tokensL ("sm jo" : String).data) (tokensL ("jo sm" : String).data) ∧
    List.Perm (tokensL ("jo sm" : String).data) (tokensL ("sm jo" : String).data) ∧
    tokenSortScore "sm jo" "jo sm" = tokenSortScore "jo sm" "sm jo" := by
  refine ⟨?_, ?_, ?_⟩
  · show List.Perm [['s', 'm'], ['j', 'o']] [['j', 'o'], ['s', 'm']]
    exact List.Perm.swap _ _ _
  · show List.Perm [['j', 'o'], ['s', 'm']] [['s', 'm'], ['j', 'o']]
    exact List.Perm.swap _ _ _
  · exact token_permutation_invariance "jo sm" "sm jo" "sm jo" "jo sm"
      (by show List.Perm [['s', 'm'], ['j', 'o']] [['j', 'o'], ['s', 'm']]
          exact List.Perm.swap _ _ _)
      (by show List.Perm [['j', 'o'], ['s', 'm']] [['s', 'm'], ['j', 'o']]
          exact List.Perm.swap _ _ _)

/-- Claim C2 as stated is refuted by this counterexample: with two members
both named "John Smith", the input "John Smith" yields an accepted match
whose best fuzzy score is 1 and whose second-best score is also 1 (gap 0,
within the 0.05 threshold), yet the perfect-match early exit returns
`is_ambiguous = false`. -/
theorem ambiguity_boundary_cex :
    memberScore (pyLower (pyStrip "John Smith")) memJohnSmith1 = 1 ∧
    memberScore (pyLower (pyStrip "John Smith")) memJohnSmith2 = 1 ∧
    ((1 : ℚ) - 1 ≤ 1/20) ∧ ((7 : ℚ)/10 ≤ 1) ∧ regDup.members.length = 2 ∧
    regDup.find_by_name "John Smith" (7/10) (1/20) =
      MatchResultDict.mk (some memJohnSmith1) 1 false := by
  refine ⟨?_, ?_, ?_, ?_, ?_, ?_⟩ <;> with_unfolding_all decide

/-- Claim C2 (amended): when no correction override applies and no member
scores exactly 1.0 — so the scoring loop completes and the ambiguity check
is reached — an accepted match (best score at least `min_confidence`) with
a second candidate is flagged ambiguous if and only if
`best − second ≤ ambiguity_threshold`, including at the exact boundary. -/
theorem ambiguity_boundary (r : MemberRegistry) (name : String)
    (minc amb : ℚ) (scores rest : List (Member × ℚ)) (bm m2 : Member)
    (bs s2 : ℚ)
    (hcorr : correctionHit r (pyLower (pyStrip name)) = none)
    (hok : computeScores (pyLower (pyStrip name)) r.members = Except.ok scores)
    (hs : List.insertionSort scoreDescOrder scores = (bm, bs) :: (m2, s2) :: rest)
    (hacc : minc ≤ bs) :
    ((r.find_by_name name minc amb).is_ambiguous = true ↔ bs - s2 ≤ amb) := by
  have hne : r.members ≠ [] := by
    intro he
    rw [he] at hok
    simp only [computeScores] at hok
    injection hok with hok
    rw [← hok] at hs
    simp at hs
  have hemp : ¬ (r.members.isEmpty = true) := fun hx => hne (List.isEmpty_iff.mp hx)
  unfold MemberRegistry.find_by_name fuzzyPhase
  rw [if_neg hemp]
  simp only [hcorr, hok, hs]
  rw [if_neg (not_lt.mpr hacc)]
  exact decide_eq_true_iff

/-- Witness for C2 (amended): two members one letter apart both score 0.8
against "Al Bz"; the gap 0 is within the threshold and the match is
flagged ambiguous. -/
theorem ambiguity_boundary_witness :
    correctionHit regClose (pyLower (pyStrip "Al Bz")) = none ∧
    computeScores (pyLower (pyStrip "Al Bz")) regClose.members =
      Except.ok [(memAlBa, 4/5), (memAlBc, 4/5)] ∧
    List.insertionSort scoreDescOrder [(memAlBa, 4/5), (memAlBc, 4/5)] =
      (memAlBa, (4 : ℚ)/5) :: (memAlBc, (4 : ℚ)/5) :: [] ∧
    ((7 : ℚ)/10 ≤ 4/5) ∧
    ((regClose.find_by_name "Al Bz" (7/10) (1/20)).is_ambiguous = true ↔
      (4 : ℚ)/5 - 4/5 ≤ 1/20) :=
  ⟨by with_unfolding_all decide, by with_unfolding_all rfl,
   by with_unfolding_all decide, by with_unfolding_all decide,
   ambiguity_boundary regClose "Al Bz" (7/10) (1/20)
     [(memAlBa, 4/5), (memAlBc, 4/5)] [] memAlBa memAlBc (4/5) (4/5)
     (by with_unfolding_all decide) (by with_unfolding_all rfl)
     (by with_unfolding_all decide) (by with_unfolding_all decide)⟩

/-- Claim C4 as stated is refuted by this counterexample: the correction
"bob" → "John Smith" makes `find_by_name` return a match for "Bob" even
though the best fuzzy score over all members, 2/13, is far below
`min_confidence = 0.70` and the registry is non-empty. -/
theorem unmatched_iff_below_threshold_cex :
    bestScore (pyLower (pyStrip "Bob")) regBobCorr.members = 2/13 ∧
    ((2 : ℚ)/13 < 7/10) ∧ regBobCorr.members ≠ [] ∧
    regBobCorr.find_by_name "Bob" (7/10) (1/20) =
      MatchResultDict.mk (some memJohnSmith1) 1 false := by
  refine ⟨?_, ?_, ?_, ?_⟩ <;> with_unfolding_all decide

/-- Claim C4 (amended): provided `min_confidence ≤ 1` and no correction
override applies to the normalized name, `find_by_name` returns an
unmatched outcome exactly when the registry is empty or the best fuzzy
score is strictly below `min_confidence`; the empty case returns
confidence 0.0 and `is_ambiguous = false`, and the below-threshold case
returns the best (rejected) score as the confidence. -/
theorem unmatched_iff_below_threshold (r : MemberRegistry) (name : String)
    (minc amb : ℚ) (hmc : minc ≤ 1)
    (hcorr : correctionHit r (pyLower (pyStrip name)) = none) :
    ((r.find_by_name name minc amb).member = none ↔
      (r.members = [] ∨ bestScore (pyLower (pyStrip name)) r.members < minc)) ∧
    (r.members = [] → r.find_by_name name minc amb = ⟨none, 0, false⟩) ∧
    (r.members ≠ [] → bestScore (pyLower (pyStrip name)) r.members < minc →
      r.find_by_name name minc amb =
        ⟨none, bestScore (pyLower (pyStrip name)) r.members, false⟩) := by
  by_cases hne : r.members = []
  · have hemp : r.members.isEmpty = true := by rw [hne]; rfl
    unfold MemberRegistry.find_by_name
    rw [if_pos hemp]
    exact ⟨by simp [hne], fun _ => rfl, fun h _ => absurd hne h⟩
  · have hemp : ¬ (r.members.isEmpty = true) :=
      fun hx => hne (List.isEmpty_iff.mp hx)
    cases hcs : computeScores (pyLower (pyStrip name)) r.members with
    | error m =>
      rcases computeScores_error _ _ _ hcs with ⟨hmem, hone⟩
      have hbest : (1 : ℚ) ≤ bestScore (pyLower (pyStrip name)) r.members := by
        rw [← hone]
        exact le_bestScore _ _ _ hmem
      have hnotlt : ¬ bestScore (pyLower (pyStrip name)) r.members < minc :=
        not_lt.mpr (le_trans hmc hbest)
      unfold MemberRegistry.find_by_name fuzzyPhase
      rw [if_neg hemp]
      simp only [hcorr, hcs]
      exact ⟨by simp [hne, hnotlt], fun h => absurd h hne,
        fun _ hlt => absurd hlt hnotlt⟩
    | ok scores =>
      cases hs : List.insertionSort scoreDescOrder scores with
      | nil =>
        exfalso
        have hlen : scores.length = 0 := by
          rw [← List.length_insertionSort scoreDescOrder scores, hs]
          rfl
        have := computeScores_ok _ _ _ hcs
        rw [this, List.length_map] at hlen
        exact hne (List.length_eq_zero.mp hlen)
      | cons b rest' =>
        obtain ⟨bm, bs⟩ := b
        have hbs : bs = bestScore (pyLower (pyStrip name)) r.members :=
          sorted_head_bestScore _ _ _ _ _ _ hcs hs
        unfold MemberRegistry.find_by_name fuzzyPhase
        rw [if_neg hemp]
        simp only [hcorr, hcs, hs]
        by_cases hlt : bs < minc
        · rw [if_pos hlt]
          refine ⟨?_, fun h => absurd h hne, fun _ _ => ?_⟩
          · simp only [true_iff]
            right
            rw [← hbs]
            exact hlt
          · rw [← hbs]
        · rw [if_neg hlt]
          refine ⟨?_, fun h => absurd h hne, fun _ hlt' => ?_⟩
          · refine iff_of_false (by simp) ?_
            rintro (h | h)
            · exact hne h
            · rw [← hbs] at h
              exact hlt h
          · exfalso
            rw [← hbs] at hlt'
            exact hlt hlt'

/-- Witness for C4 (amended): "Zz" matches nobody in the scenario registry,
and the outcome is unmatched with the best rejected score reported. -/
theorem unmatched_iff_below_threshold_witness :
    ((7 : ℚ)/10 ≤ 1) ∧
    correctionHit regScenario (pyLower (pyStrip "Zz")) = none ∧
    (((regScenario.find_by_name "Zz" (7/10) (1/20)).member = none ↔
      (regScenario.members = [] ∨
        bestScore (pyLower (pyStrip "Zz")) regScenario.members < 7/10)) ∧
    (regScenario.members = [] →
      regScenario.find_by_name "Zz" (7/10) (1/20) = ⟨none, 0, false⟩) ∧
    (regScenario.members ≠ [] →
      bestScore (pyLower (pyStrip "Zz")) regScenario.members < 7/10 →
      regScenario.find_by_name "Zz" (7/10) (1/20) =
        ⟨none, bestScore (pyLower (pyStrip "Zz")) regScenario.members, false⟩)) :=
  ⟨by with_unfolding_all decide, by with_unfolding_all decide,
   unmatched_iff_below_threshold regScenario "Zz" (7/10) (1/20)
     (by with_unfolding_all decide) (by with_unfolding_all decide)⟩



/-- Claim C5 as stated is refuted by this counterexample: the registry
holds two members whose full name is exactly "John Smith"; resolving the
second member's own full name returns the *first* member, not the second. -/
theorem self_resolution_cex :
    memJohnSmith2 ∈ regDup.members ∧
    memJohnSmith2.full_name = "John Smith" ∧
    regDup.find_by_name memJohnSmith2.full_name (7/10) (1/20) =
      MatchResultDict.mk (some memJohnSmith1) 1 false ∧
    memJohnSmith1 ≠ memJohnSmith2 := by
  refine ⟨?_, ?_, ?_, ?_⟩ <;> with_unfolding_all decide

/-- Claim C5 (amended): resolving a member's own full name (identical
casing and spacing) always returns a match with confidence 1.0 and
`is_ambiguous = false`; the returned member is exactly `m` provided no
correction override applies to the normalized name and `m` is the first
member of the registry whose token-sorted lower-cased full name equals
`m`'s own. -/
theorem self_resolution (r : MemberRegistry) (m : Member) (minc amb : ℚ)
    (hmem : m ∈ r.members) :
    ((r.find_by_name m.full_name minc amb).confidence = 1 ∧
     (r.find_by_name m.full_name minc amb).member.isSome = true ∧
     (r.find_by_name m.full_name minc amb).is_ambiguous = false) ∧
    (correctionHit r (pyLower (pyStrip m.full_name)) = none →
     r.members.find? (fun m' =>
       tokenSortKey (pyLower m'.full_name) ==
         tokenSortKey (pyLower m.full_name)) = some m →
     r.find_by_name m.full_name minc amb = ⟨some m, 1, false⟩) := by
  have hone : memberScore (pyLower (pyStrip m.full_name)) m = 1 :=
    (tokenSortScore_eq_one_iff _ _).mpr (tokenSortKeyL_strip m.full_name)
  have hne : r.members ≠ [] := by
    intro h
    rw [h] at hmem
    simp at hmem
  have hemp : ¬ (r.members.isEmpty = true) :=
    fun hx => hne (List.isEmpty_iff.mp hx)
  have hkeyeq : tokenSortKey (pyLower m.full_name) =
      tokenSortKey (pyLower (pyStrip m.full_name)) := by
    show String.mk _ = String.mk _
    rw [tokenSortKeyL_strip]
  constructor
  · unfold MemberRegistry.find_by_name
    rw [if_neg hemp]
    cases hhit : correctionHit r (pyLower (pyStrip m.full_name)) with
    | some m' => exact ⟨rfl, rfl, rfl⟩
    | none =>
      rcases computeScores_error_of_mem (pyLower (pyStrip m.full_name))
        r.members m hmem hone with ⟨m', hcs⟩
      unfold fuzzyPhase
      rw [hcs]
      exact ⟨rfl, rfl, rfl⟩
  · intro hcorr hfind
    have hpred : (fun m' : Member => tokenSortKey (pyLower m'.full_name) ==
        tokenSortKey (pyLower m.full_name)) =
        (fun m' : Member => tokenSortKey (pyLower m'.full_name) ==
          tokenSortKey (pyLower (pyStrip m.full_name))) := by
      funext m'
      rw [hkeyeq]
    rw [hpred] at hfind
    have hcs := computeScores_error_of_find
      (pyLower (pyStrip m.full_name)) r.members m hfind
    unfold MemberRegistry.find_by_name fuzzyPhase
    rw [if_neg hemp]
    simp only [hcorr, hcs]

/-- Witness for C5 (amended): Jeffrey Davis resolves to himself in the
scenario registry at confidence 1.0. -/
theorem self_resolution_witness :
    memJeffreyDavis ∈ regScenario.members ∧
    (((regScenario.find_by_name memJeffreyDavis.full_name (7/10) (1/20)).confidence = 1 ∧
      (regScenario.find_by_name memJeffreyDavis.full_name (7/10) (1/20)).member.isSome
          = true ∧
      (regScenario.find_by_name memJeffreyDavis.full_name (7/10) (1/20)).is_ambiguous
          = false)) ∧
    regScenario.find_by_name memJeffreyDavis.full_name (7/10) (1/20) =
      ⟨some memJeffreyDavis, 1, false⟩ :=
  ⟨by with_unfolding_all decide,
   (self_resolution regScenario memJeffreyDavis (7/10) (1/20)
      (by with_unfolding_all decide)).1,
   (self_resolution regScenario memJeffreyDavis (7/10) (1/20)
      (by with_unfolding_all decide)).2
     (by with_unfolding_all rfl) (by with_unfolding_all decide)⟩

/-- Claim C7 as stated is refuted by this counterexample: a roster row
whose age cell holds the non-empty, non-numeric text "abc" makes the row
loop raise `ValueError` — the load aborts instead of producing a member
with a null age. -/
theorem roster_row_fields_cex :
    rowGet rowBadAge "age" = some "abc" ∧ ("abc" : String) ≠ "" ∧
    memberFromRow rowBadAge = Except.error "ValueError" ∧
    loadMembers [rowBadAge] = Except.error "ValueError" := by
  refine ⟨?_, ?_, ?_, ?_⟩
  · with_unfolding_all decide
  · with_unfolding_all decide
  · with_unfolding_all rfl
  · with_unfolding_all rfl

/-- Claim C7 (amended): loading a roster row keeps present-but-empty
optional text fields as the empty string (not null), and produces a null
age exactly when the age field is absent or empty; a row with a non-empty
but non-numeric age instead raises `ValueError`, aborting the load. -/
theorem roster_row_fields (row : List (String × String)) :
    (∀ m, memberFromRow row = Except.ok m →
      m.email = rowGet row "email" ∧ m.gender = rowGet row "gender" ∧
      (m.age = none ↔ (rowGet row "age" = none ∨ rowGet row "age" = some ""))) ∧
    (memberFromRow row = Except.error "ValueError" ↔
      ∃ s, rowGet row "age" = some s ∧ s ≠ "" ∧ pyInt s = none) := by
  unfold memberFromRow
  cases hage : rowGet row "age" with
  | none =>
    have hav : ageFromRow row = Except.ok none := by
      unfold ageFromRow
      rw [hage]
    rw [hav]
    simp only [Except.map]
    refine ⟨?_, ?_⟩
    · intro m hm
      injection hm with hm
      subst hm
      exact ⟨rfl, rfl, by simp⟩
    · constructor
      · intro h
        exact absurd h (by simp)
      · rintro ⟨s, hs, _, _⟩
        exact Option.noConfusion hs
  | some s =>
    by_cases hse : s = ""
    · subst hse
      have hav : ageFromRow row = Except.ok none := by
        unfold ageFromRow
        rw [hage]
        rfl
      rw [hav]
      simp only [Except.map]
      refine ⟨?_, ?_⟩
      · intro m hm
        injection hm with hm
        subst hm
        exact ⟨rfl, rfl, by simp⟩
      · constructor
        · intro h
          exact absurd h (by simp)
        · rintro ⟨s', hs', hne', _⟩
          injection hs' with hs'
          exact absurd hs'.symm hne'
    · cases hp : pyInt s with
      | some n =>
        have hav : ageFromRow row = Except.ok (some n) := by
          unfold ageFromRow
          rw [hage]
          show (if s = "" then Except.ok none
            else match pyInt s with
              | some n => Except.ok (some n)
              | none => Except.error "ValueError") = Except.ok (some n)
          rw [if_neg hse, hp]
        rw [hav]
        simp only [Except.map]
        refine ⟨?_, ?_⟩
        · intro m hm
          injection hm with hm
          subst hm
          refine ⟨rfl, rfl, ?_⟩
          simp [hse]
        · constructor
          · intro h
            exact absurd h (by simp)
          · rintro ⟨s', hs', _, hp'⟩
            injection hs' with hs'
            rw [← hs'] at hp'
            rw [hp] at hp'
            exact Option.noConfusion hp'
      | none =>
        have hav : ageFromRow row = Except.error "ValueError" := by
          unfold ageFromRow
          rw [hage]
          show (if s = "" then Except.ok none
            else match pyInt s with
              | some n => Except.ok (some n)
              | none => Except.error "ValueError") = Except.error "ValueError"
          rw [if_neg hse, hp]
        rw [hav]
        simp only [Except.map]
        refine ⟨?_, ?_⟩
        · intro m hm
          exact absurd hm (by simp)
        · constructor
          · intro _
            exact ⟨s, rfl, hse, hp⟩
          · intro _
            trivial

/-- Witness for C7 (amended): the row with empty optional cells loads with
email and gender as empty strings and age null. -/
theorem roster_row_fields_witness :
    memberFromRow rowEmptyOpt = Except.ok memJohnDoe ∧
    (memJohnDoe.email = rowGet rowEmptyOpt "email" ∧
     memJohnDoe.gender = rowGet rowEmptyOpt "gender" ∧
     (memJohnDoe.age = none ↔
       (rowGet rowEmptyOpt "age" = none ∨ rowGet rowEmptyOpt "age" = some ""))) :=
  ⟨by with_unfolding_all rfl,
   (roster_row_fields rowEmptyOpt).1 memJohnDoe (by with_unfolding_all rfl)⟩



/-! ### Facts about the age-group grouping -/

theorem addToGroups_keys_sub (x : Nat × RacePoints) :
    ∀ (gs : List ((Option AgeGroup × Option String) × List (Nat × RacePoints)))
      (k' : Option AgeGroup × Option String),
      k' ∈ (addToGroups gs x).map Prod.fst →
      k' ∈ gs.map Prod.fst ∨ k' = groupKey x.2 := by
  intro gs
  induction gs with
  | nil =>
    intro k' h
    simp only [addToGroups, List.map_cons, List.map_nil] at h
    rcases List.mem_cons.mp h with h | h
    · exact Or.inr h
    · simp at h
  | cons q rest ih =>
    intro k' h
    obtain ⟨k, g⟩ := q
    simp only [addToGroups] at h
    by_cases he : k = groupKey x.2
    · rw [if_pos he] at h
      simp only [List.map_cons] at h
      exact Or.inl h
    · rw [if_neg he] at h
      simp only [List.map_cons] at h
      rcases List.mem_cons.mp h with h | h
      · exact Or.inl (by simp [h])
      · rcases ih k' h with h2 | h2
        · exact Or.inl (List.mem_cons_of_mem _ h2)
        · exact Or.inr h2

theorem addToGroups_keys_nodup (x : Nat × RacePoints) :
    ∀ (gs : List ((Option AgeGroup × Option String) × List (Nat × RacePoints))),
      (gs.map Prod.fst).Nodup → ((addToGroups gs x).map Prod.fst).Nodup := by
  intro gs
  induction gs with
  | nil =>
    intro _
    simp [addToGroups]
  | cons q rest ih =>
    intro h
    obtain ⟨k, g⟩ := q
    simp only [List.map_cons, List.nodup_cons] at h
    obtain ⟨hk, hrest⟩ := h
    simp only [addToGroups]
    by_cases he : k = groupKey x.2
    · rw [if_pos he]
      simp only [List.map_cons, List.nodup_cons]
      exact ⟨hk, hrest⟩
    · rw [if_neg he]
      simp only [List.map_cons, List.nodup_cons]
      refine ⟨?_, ih hrest⟩
      intro hmem
      rcases addToGroups_keys_sub x rest k hmem with h2 | h2
      · exact hk h2
      · exact he h2

theorem addToGroups_bucketF (x : Nat × RacePoints)
    (k : Option AgeGroup × Option String) :
    ∀ (gs : List ((Option AgeGroup × Option String) × List (Nat × RacePoints))),
      (gs.map Prod.fst).Nodup →
      bucketF k (addToGroups gs x) =
        bucketF k gs ++ (if groupKey x.2 == k then [x] else []) := by
  intro gs
  induction gs with
  | nil =>
    intro _
    simp only [addToGroups, bucketF, List.find?]
    by_cases hkk : (groupKey x.2 == k) = true
    · rw [hkk]
      simp
    · rw [Bool.not_eq_true] at hkk
      rw [hkk]
      simp
  | cons q rest ih =>
    intro hnd
    obtain ⟨k', g⟩ := q
    simp only [List.map_cons, List.nodup_cons] at hnd
    obtain ⟨hk', hrest⟩ := hnd
    simp only [addToGroups]
    by_cases he : k' = groupKey x.2
    · rw [if_pos he]
      by_cases hk'k : (k' == k) = true
      · simp only [bucketF, List.find?, hk'k]
        have : (groupKey x.2 == k) = true := by
          rw [← he]
          exact hk'k
        rw [if_pos this]
      · rw [Bool.not_eq_true] at hk'k
        simp only [bucketF, List.find?, hk'k]
        have : (groupKey x.2 == k) = false := by
          rw [← he]
          exact hk'k
        rw [this, if_neg (by simp)]
        simp [bucketF]
    · rw [if_neg he]
      by_cases hk'k : (k' == k) = true
      · simp only [bucketF, List.find?, hk'k]
        have hx : (groupKey x.2 == k) = false := by
          have := eq_of_beq hk'k
          rw [← this]
          by_contra hcon
          rw [Bool.not_eq_false] at hcon
          exact he (eq_of_beq hcon).symm
        rw [hx, if_neg (by simp)]
        simp
      · rw [Bool.not_eq_true] at hk'k
        simp only [bucketF, List.find?, hk'k]
        exact ih hrest

theorem foldl_addToGroups :
    ∀ (l : List (Nat × RacePoints))
      (gs : List ((Option AgeGroup × Option String) × List (Nat × RacePoints))),
      (gs.map Prod.fst).Nodup →
      ((l.foldl addToGroups gs).map Prod.fst).Nodup ∧
      ∀ k, bucketF k (l.foldl addToGroups gs) =
        bucketF k gs ++ l.filter (fun x => groupKey x.2 == k) := by
  intro l
  induction l with
  | nil =>
    intro gs h
    exact ⟨h, fun k => by simp⟩
  | cons x l' ih =>
    intro gs h
    rw [List.foldl_cons]
    rcases ih (addToGroups gs x) (addToGroups_keys_nodup x gs h) with ⟨h1, h2⟩
    refine ⟨h1, fun k => ?_⟩
    rw [h2 k, addToGroups_bucketF x k gs h, List.filter_cons]
    by_cases hx : (groupKey x.2 == k) = true
    · rw [if_pos hx, if_pos hx]
      simp
    · rw [Bool.not_eq_true] at hx
      rw [hx]
      simp

theorem find?_key_self :
    ∀ (gs : List ((Option AgeGroup × Option String) × List (Nat × RacePoints))),
      (gs.map Prod.fst).Nodup →
      ∀ p ∈ gs, gs.find? (fun q => q.1 == p.1) = some p := by
  intro gs
  induction gs with
  | nil => intro _ p hp; simp at hp
  | cons q rest ih =>
    intro hnd p hp
    simp only [List.map_cons, List.nodup_cons] at hnd
    obtain ⟨hq, hrest⟩ := hnd
    simp only [List.find?]
    rcases List.mem_cons.mp hp with h | h
    · subst h
      rw [beq_self_eq_true]
    · have hne : (q.1 == p.1) = false := by
        by_contra hcon
        rw [Bool.not_eq_false] at hcon
        apply hq
        rw [eq_of_beq hcon]
        exact List.mem_map.mpr ⟨p, h, rfl⟩
      rw [hne]
      exact ih hrest p h


theorem enum_tag_unique {l : List RacePoints} {x y : Nat × RacePoints}
    (hx : x ∈ l.enum) (hy : y ∈ l.enum) (h : x.1 = y.1) : x = y := by
  rw [List.mem_enum_iff_getElem?] at hx hy
  rw [h] at hx
  rw [hx] at hy
  have : x.2 = y.2 := by
    injection hy
  obtain ⟨x1, x2⟩ := x
  obtain ⟨y1, y2⟩ := y
  simp only at h this
  rw [h, this]

theorem mem_enum_snd {l : List (Nat × RacePoints)} {q : Nat × (Nat × RacePoints)}
    (h : q ∈ l.enum) : q.2 ∈ l := by
  rw [List.mem_enum_iff_getElem?] at h
  rcases List.getElem?_eq_some.mp h with ⟨hlt, he⟩
  rw [← he]
  exact List.getElem_mem hlt

theorem mem_tags_assignGroup (config : PointsConfig)
    {g : List (Nat × RacePoints)} {y : Nat × RacePoints}
    (h : y ∈ assignGroup config g) :
    ∃ z ∈ g, z.1 = y.1 := by
  unfold assignGroup at h
  rcases List.mem_map.mp h with ⟨q, hq, he⟩
  have hz : q.2 ∈ List.insertionSort placeOrder g := mem_enum_snd hq
  rw [List.mem_insertionSort] at hz
  refine ⟨q.2, hz, ?_⟩
  rw [← he]

theorem assign_find_aux (config : PointsConfig) (i : Nat) :
    ∀ (s : List (Nat × RacePoints)) (j : Nat) (x0 : Nat × RacePoints),
      s.find? (fun x => x.1 == i) = some x0 →
      ((s.enumFrom j).map (fun q => (q.2.1, updRP config q.1 q.2.2))).find?
          (fun y => y.1 == i) =
        some (x0.1, updRP config (j + s.findIdx (fun x => x.1 == i)) x0.2) := by
  intro s
  induction s with
  | nil => intro j x0 h; simp at h
  | cons t s' ih =>
    intro j x0 h
    simp only [List.find?] at h
    by_cases ht : (t.1 == i) = true
    · rw [ht] at h
      injection h with h
      subst h
      simp only [List.enumFrom_cons, List.map_cons, List.find?, ht,
        List.findIdx_cons, cond_true]
      rw [Nat.add_zero]
    · rw [Bool.not_eq_true] at ht
      rw [ht] at h
      simp only [List.enumFrom_cons, List.map_cons, List.find?, ht,
        List.findIdx_cons, cond_false]
      have := ih (j + 1) x0 h
      rw [this]
      have harith : (j + 1) + s'.findIdx (fun x => x.1 == i) =
          j + (s'.findIdx (fun x => x.1 == i) + 1) := by omega
      rw [harith]

theorem find_flatten (config : PointsConfig) (i : Nat)
    (k : Option AgeGroup × Option String) (bucket : List (Nat × RacePoints))
    (hsome : (List.find? (fun y => y.1 == i)
      (assignGroup config bucket)).isSome = true) :
    ∀ (gl : List ((Option AgeGroup × Option String) × List (Nat × RacePoints))),
      (k, bucket) ∈ gl →
      (∀ q ∈ gl, q = (k, bucket) ∨
        ∀ y ∈ assignGroup config q.2, (y.1 == i) = false) →
      List.find? (fun y => y.1 == i)
          ((gl.map (fun q => assignGroup config q.2)).flatten) =
        List.find? (fun y => y.1 == i) (assignGroup config bucket) := by
  intro gl
  induction gl with
  | nil => intro h _; simp at h
  | cons q gl' ih =>
    intro hmem H
    simp only [List.map_cons, List.flatten_cons, List.find?_append]
    by_cases hqe : q = (k, bucket)
    · subst hqe
      rcases Option.isSome_iff_exists.mp hsome with ⟨v, hv⟩
      rw [hv]
      rfl
    · have hnone : ∀ y ∈ assignGroup config q.2, (y.1 == i) = false :=
        (H q (List.mem_cons_self q gl')).resolve_left hqe
      have hfn : List.find? (fun y => y.1 == i) (assignGroup config q.2) = none := by
        rw [List.find?_eq_none]
        intro y hy
        rw [hnone y hy]
        simp
      rw [hfn, Option.none_or]
      apply ih
      · rcases List.mem_cons.mp hmem with h | h
        · exact absurd h.symm hqe
        · exact h
      · intro q' hq'
        exact H q' (List.mem_cons_of_mem q hq')

theorem age_points_formula (config : PointsConfig) (n : Int) (hn : 1 ≤ n) :
    config.calculate_age_group_points n =
      max 1 ((match config.race_type with
        | RaceType.RACE_100 => 20
        | RaceType.RACE_75 => 15) - (n - 1)) := by
  unfold PointsConfig.calculate_age_group_points
  cases config.race_type <;>
    · simp only []
      split_ifs <;>
        rcases max_one_cases _ with ⟨hx, he⟩ | ⟨hx, he⟩ <;> rw [he] <;> omega


/-- Claim C9: age-group points are assigned by partitioning the race's
matched finishers into (age-group, gender) subgroups, sorting each
subgroup by overall place ascending (stable), numbering them 1..k, and
awarding `ceiling − (rank − 1)` points floored at 1 (ceiling 15 for
75-point races, 20 for 100-point races): the in-place grouped update of
`_calculate_age_group_points` equals the direct per-finisher description,
and two same-gender, same-age-group finishers at overall places 1 and 5 in
a 75-point race receive 15 and 14 age-group points. -/
theorem age_group_points_refinement :
    (∀ (config : PointsConfig) (rps : List RacePoints),
      calculateAgeGroupPointsList config rps = specAgeGroupPoints config rps) ∧
    (calculate_race_points (PointsConfig.mk RaceType.RACE_75)
        [mrPlace1, mrPlace5] "race").map
        (fun rp => (rp.member_id, rp.age_group_place, rp.age_group_points)) =
      [("A1", some 1, 15), ("A2", some 2, 14)] := by
  constructor
  · intro config rps
    simp only [calculateAgeGroupPointsList, specAgeGroupPoints]
    apply List.map_congr_left
    intro p hp
    obtain ⟨i, rp⟩ := p
    dsimp only
    obtain ⟨hnodup, hbuckets⟩ := foldl_addToGroups rps.enum [] (by simp)
    have hpmem : (i, rp) ∈ rps.enum.filter
        (fun x => groupKey x.2 == groupKey rp) :=
      List.mem_filter.mpr ⟨hp, by simp⟩
    -- the bucket holding this element
    have hbucket : bucketF (groupKey rp) (rps.enum.foldl addToGroups []) =
        rps.enum.filter (fun x => groupKey x.2 == groupKey rp) := by
      rw [hbuckets (groupKey rp)]
      simp [bucketF]
    have hfq : (rps.enum.foldl addToGroups []).find?
        (fun q => q.1 == groupKey rp) =
        some (groupKey rp,
          rps.enum.filter (fun x => groupKey x.2 == groupKey rp)) := by
      cases hfq0 : (rps.enum.foldl addToGroups []).find?
          (fun q => q.1 == groupKey rp) with
      | none =>
        exfalso
        have : bucketF (groupKey rp) (rps.enum.foldl addToGroups []) = [] := by
          simp [bucketF, hfq0]
        rw [hbucket] at this
        rw [this] at hpmem
        simp at hpmem
      | some q =>
        have hq2 : q.2 = rps.enum.filter (fun x => groupKey x.2 == groupKey rp) := by
          have : bucketF (groupKey rp) (rps.enum.foldl addToGroups []) = q.2 := by
            simp [bucketF, hfq0]
          rw [hbucket] at this
          exact this.symm
        have hpred := List.find?_some hfq0
        have hq1 : q.1 = groupKey rp := eq_of_beq hpred
        obtain ⟨qk, qb⟩ := q
        simp only at hq1 hq2
        rw [hq1, hq2]
    have hgmem : (groupKey rp,
        rps.enum.filter (fun x => groupKey x.2 == groupKey rp)) ∈
        rps.enum.foldl addToGroups [] :=
      List.mem_of_find?_eq_some hfq
    -- the element's position in its sorted subgroup
    have hmem_sorted : (i, rp) ∈ List.insertionSort placeOrder
        (rps.enum.filter (fun x => groupKey x.2 == groupKey rp)) := by
      rw [List.mem_insertionSort]
      exact hpmem
    have hsfind : (List.insertionSort placeOrder
        (rps.enum.filter (fun x => groupKey x.2 == groupKey rp))).find?
          (fun x => x.1 == i) = some (i, rp) := by
      have hisSome : ((List.insertionSort placeOrder
          (rps.enum.filter (fun x => groupKey x.2 == groupKey rp))).find?
            (fun x => x.1 == i)).isSome := by
        rw [List.find?_isSome]
        exact ⟨(i, rp), hmem_sorted, by simp⟩
      rcases Option.isSome_iff_exists.mp hisSome with ⟨x0, hx0⟩
      have hpred := List.find?_some hx0
      have hx0i : x0.1 = i := eq_of_beq hpred
      have hx0mem : x0 ∈ rps.enum := by
        have h1 := List.mem_of_find?_eq_some hx0
        rw [List.mem_insertionSort] at h1
        exact (List.mem_filter.mp h1).1
      have : x0 = (i, rp) := enum_tag_unique hx0mem hp hx0i
      rw [this] at hx0
      exact hx0
    have hassign : (assignGroup config
        (rps.enum.filter (fun x => groupKey x.2 == groupKey rp))).find?
          (fun y => y.1 == i) =
        some (i, updRP config ((List.insertionSort placeOrder
          (rps.enum.filter (fun x => groupKey x.2 == groupKey rp))).findIdx
            (fun x => x.1 == i)) rp) := by
      have := assign_find_aux config i (List.insertionSort placeOrder
        (rps.enum.filter (fun x => groupKey x.2 == groupKey rp))) 0 (i, rp) hsfind
      simpa [assignGroup, List.enum] using this
    have hassign_some : ((assignGroup config
        (rps.enum.filter (fun x => groupKey x.2 == groupKey rp))).find?
          (fun y => y.1 == i)).isSome = true := by
      rw [hassign]
      rfl
    have hH : ∀ q ∈ rps.enum.foldl addToGroups [],
        q = (groupKey rp,
          rps.enum.filter (fun x => groupKey x.2 == groupKey rp)) ∨
        ∀ y ∈ assignGroup config q.2, (y.1 == i) = false := by
      intro q hq
      by_cases hk : q.1 = groupKey rp
      · left
        have h1 := find?_key_self _ hnodup q hq
        rw [hk] at h1
        rw [h1] at hfq
        injection hfq
      · right
        intro y hy
        rcases mem_tags_assignGroup config hy with ⟨z, hz, hzy⟩
        have h1 := find?_key_self _ hnodup q hq
        have hq2 : q.2 = rps.enum.filter (fun x => groupKey x.2 == q.1) := by
          have hb := hbuckets q.1
          simp only [bucketF, h1] at hb
          simpa using hb
        by_contra hcon
        rw [Bool.not_eq_false] at hcon
        have hyi : y.1 = i := eq_of_beq hcon
        rw [hq2] at hz
        have hz_enum : z ∈ rps.enum := (List.mem_filter.mp hz).1
        have hz_key : (groupKey z.2 == q.1) = true := (List.mem_filter.mp hz).2
        have hzi : z = (i, rp) := enum_tag_unique hz_enum hp (by rw [hzy, hyi])
        rw [hzi] at hz_key
        exact hk (eq_of_beq hz_key).symm
    have hflat := find_flatten config i (groupKey rp)
      (rps.enum.filter (fun x => groupKey x.2 == groupKey rp)) hassign_some
      (rps.enum.foldl addToGroups []) hgmem hH
    rw [hflat, hassign]
    simp only [Option.map_some', Option.getD_some]
    unfold updRP
    rw [age_points_formula config _ (by omega)]

  · with_unfolding_all decide

end KRRA

-- sanity checks (concrete evaluations, kernel-checked)
example : KRRA.tokenSortKey "Jeff  Davis" = "Davis Jeff" := by decide
example : KRRA.tokenSortScore "bob" "al ba" = 1/4 := by with_unfolding_all decide
example : KRRA.tokenSortScore "al bz" "al ba" = 4/5 := by with_unfolding_all decide
example : KRRA.tokenSortScore "john smith" "smith john" = 1 := by with_unfolding_all decide
